import Mathlib

/-!
Verification development for the hbcht compiler/interpreter (hbcht.py).

The Python source is shallowly embedded: byte strings become `List Nat`,
the board becomes `List (List Nat)` of tile constants, the walker
(`CarProgram._path_to_commands` / `_board_to_commands`) becomes a
fuel-indexed function `walk`, the interpreter (`CarProgram._interpret`)
becomes `interpRun`, and the bytecode codec
(`CarProgram._extract_commands` / `_hbcht_compile`) becomes
`extractCommands` / `hbchtCompile`.  Fuel exhaustion (modelling Python
divergence) is `none`; raised `CarError`s are `Except.error` values.
-/

namespace Hbcht

/-! ### Constants

The integer constants produced by the `itertools.zip_longest` trick at the
top of hbcht.py: NOP, DECREMENT, INCREMENT, PREV, NEXT, IF, GOTO, EXIT,
CAR, UP, RIGHT, DOWN, LEFT get consecutive values starting at 0. -/

/-- The distinct `CarError` messages raised by hbcht.py, one constructor
per message string. -/
inductive CarError where
  | noProgramData
  | noSourceCode
  | noCar
  | noExit
  | multipleCars
  | multipleExits
  | infiniteLoop
  | unsupportedVersion
  | corruptBytecode
  | invalidDirection
deriving DecidableEq

/-- An uncaught Python exception that is not a `CarError`: an `IndexError`
from a bad subscript or a `struct.error` from `struct.unpack`/`pack`. -/
inductive PyError where
  | car (e : CarError)
  | indexError
  | structError
deriving DecidableEq

def NOP : Nat := 0
def DECREMENT : Nat := 1
def INCREMENT : Nat := 2
def PREV : Nat := 3
def NEXT : Nat := 4
def IF : Nat := 5
def GOTO : Nat := 6
def EXIT : Nat := 7
def CAR : Nat := 8
def UP : Nat := 9
def RIGHT : Nat := 10
def DOWN : Nat := 11
def LEFT : Nat := 12

/-- Python `_ops_to_dirs_map`: the direction forced by each memory action
(`DECREMENT→DOWN, INCREMENT→UP, PREV→LEFT, NEXT→RIGHT`).  The map is only
ever read at memory-action keys, so the default value is irrelevant. -/
def opsToDirs (a : Nat) : Nat :=
  if a = DECREMENT then DOWN
  else if a = INCREMENT then UP
  else if a = PREV then LEFT
  else if a = NEXT then RIGHT
  else NOP

/-- Python `_compl_action_map`: `DECREMENT↔INCREMENT`, `PREV↔NEXT`. -/
def compl (a : Nat) : Nat :=
  if a = DECREMENT then INCREMENT
  else if a = INCREMENT then DECREMENT
  else if a = PREV then NEXT
  else if a = NEXT then PREV
  else NOP

/-- Python `action in _base_mem_ops`. -/
def baseMemOp (a : Nat) : Bool :=
  a == DECREMENT || a == INCREMENT || a == PREV || a == NEXT

/-- Python `_opcode_to_const_map` lookup with `KeyError → NOP`
('v'=118, '^'=94, '<'=60, '>'=62, '/'=47, '#'=35, 'o'=111). -/
def tileOf (c : Nat) : Nat :=
  if c = 118 then DECREMENT
  else if c = 94 then INCREMENT
  else if c = 60 then PREV
  else if c = 62 then NEXT
  else if c = 47 then IF
  else if c = 35 then EXIT
  else if c = 111 then CAR
  else NOP

/-! ### The board walker (`CarProgram._path_to_commands`)

`commands` is stored in reversed order: the head of the list is
`commands[-1]` of the Python list, so emitting is `cons`, the peephole
deletion is `tail`, and the argument bump mutates the head.  Indices
recorded in `posIds` and in `GOTO` arguments are forward indices, exactly
the Python values.  `xys` is the parallel stack, head = Python `xys[-1]`;
it starts as `[none]` mirroring the initial `[None]` sentinel. -/

structure WalkSt where
  commands : List (Nat × Nat)
  xys : List (Option (Nat × Nat))
  posIds : List ((Nat × Nat) × Nat)

/-- The initial walker state of `_board_to_commands`. -/
def st0 : WalkSt := ⟨[], [none], []⟩

/-- One coordinate move of the advance loop (lines 594-601).  Python's
`(y - 1) % H` on `0 ≤ y < H` equals `(y + H - 1) % H`; horizontal wrap is
modulo the current row's own length. -/
def stepPos (board : List (List Nat)) (x y direc : Nat) : Nat × Nat :=
  if direc = UP then (x, (y + board.length - 1) % board.length)
  else if direc = DOWN then (x, (y + 1) % board.length)
  else if direc = RIGHT then ((x + 1) % (board.getD y []).length, y)
  else if direc = LEFT then
    ((x + (board.getD y []).length - 1) % (board.getD y []).length, y)
  else (x, y)

/-- Tile lookup `board[y][x]` with `IndexError → NOP` (lines 602-606). -/
def tileAt (board : List (List Nat)) (x y : Nat) : Nat :=
  (board.getD y []).getD x NOP

/-- The classification chain of lines 607-617: a redirector met while the
car moves in the direction paired to it is ignored (`action = None`,
modelled as `none`); `/` always classifies as If. -/
def classify (p direc : Nat) : Option Nat :=
  if p = DECREMENT ∧ direc ≠ LEFT then some DECREMENT
  else if p = INCREMENT ∧ direc ≠ RIGHT then some INCREMENT
  else if p = PREV ∧ direc ≠ UP then some PREV
  else if p = NEXT ∧ direc ≠ DOWN then some NEXT
  else if p = IF then some IF
  else none

/-- Python `commands[-1][0] if commands else None`; the absent value
(`None`) is modelled as `NOP`, which no action ever equals. -/
def headOp (cs : List (Nat × Nat)) : Nat :=
  match cs with
  | [] => NOP
  | c :: _ => c.1

/-- Python `commands[-1][1] if commands else None`, modelled as 0. -/
def headArg (cs : List (Nat × Nat)) : Nat :=
  match cs with
  | [] => 0
  | c :: _ => c.2

/-- Append an instruction (`commands.append(...)`). -/
def pushCmd (st : WalkSt) (c : Nat × Nat) : WalkSt :=
  { st with commands := c :: st.commands }

/-- Run-length fusion `pc[1] += 1` (line 628). -/
def bumpHead (st : WalkSt) : WalkSt :=
  { st with commands := match st.commands with
                        | [] => []
                        | c :: t => (c.1, c.2 + 1) :: t }

/-- Inverse cancellation against an argument `> 1`: `pc[1] -= 1`. -/
def dropHeadArg (st : WalkSt) : WalkSt :=
  { st with commands := match st.commands with
                        | [] => []
                        | c :: t => (c.1, c.2 - 1) :: t }

/-- Full cancellation (lines 633-637): `del commands[-1]`, and when the
top of `xys` is a real coordinate also `del pos_ids[pp]; del xys[-1]`. -/
def cancelTop (st : WalkSt) : WalkSt :=
  match st.xys with
  | some pp :: xt =>
      { commands := st.commands.tail
        xys := xt
        posIds := st.posIds.eraseP (fun e => e.1 == pp) }
  | _ => { st with commands := st.commands.tail }

/-- Emission of a fresh memory action (lines 645-655): record
`pos_ids[(x,y)] = len(commands)`, push the coordinate, append `(A, 1)`. -/
def emit (st : WalkSt) (x y action : Nat) : WalkSt :=
  { commands := (action, 1) :: st.commands
    xys := some (x, y) :: st.xys
    posIds := ((x, y), st.commands.length) :: st.posIds }

/-- Reservation of the If placeholder slot (lines 659-662).  The Python
placeholder `(None, None)` is modelled as `(NOP, 0)`; `NOP` equals no
action and no opcode tested later, so the comparisons behave alike. -/
def reserveIf (st : WalkSt) (x y : Nat) : WalkSt :=
  { commands := (NOP, 0) :: st.commands
    xys := some (x, y) :: st.xys
    posIds := ((x, y), st.commands.length) :: st.posIds }

/-- Back-patching `commands[cid] = (IF, len(commands))` (line 664); the
forward index `cid` is position `length - 1 - cid` of the reversed list. -/
def backpatch (st : WalkSt) (cid : Nat) : WalkSt :=
  { st with commands := st.commands.set (st.commands.length - 1 - cid)
                          (IF, st.commands.length) }

/-- Python `IF in (x for x, a in commands[pos:])`; the forward slice
`commands[pos:]` is the first `length - pos` entries of the reversed
list. -/
def hasIF (cs : List (Nat × Nat)) : Bool :=
  cs.any (fun c => c.1 == IF)

/-- The perpendicular-right turn for the If branch (lines 657-658). -/
def perpRight (d : Nat) : Nat :=
  if d = UP then RIGHT
  else if d = RIGHT then DOWN
  else if d = DOWN then LEFT
  else if d = LEFT then UP
  else NOP

/-- `CarProgram._path_to_commands`, fuel-indexed.  One unit of fuel is one
iteration through the body (one coordinate move).  `none` models a Python
execution that has not returned within `fuel` steps — and, by the theorems
below, for every fuel on some boards, i.e. true divergence.  `Except.error`
models a raised `CarError`. -/
def walk (board : List (List Nat)) :
    Nat → Nat → Nat → Nat → Nat → WalkSt → Option (Except CarError WalkSt)
  | 0, _, _, _, _, _ => none
  | (fuel+1), x, y, direc, beginPos, st =>
    let x' := (stepPos board x y direc).1
    let y' := (stepPos board x y direc).2
    let p := tileAt board x' y'
    if p = NOP then walk board fuel x' y' direc beginPos st
    else if p = EXIT then some (Except.ok (pushCmd st (EXIT, 0)))
    else
      match classify p direc with
      | none => walk board fuel x' y' direc beginPos st
      | some action =>
        let direc' := if baseMemOp action then opsToDirs action else direc
        if baseMemOp action = true ∧ headOp st.commands = action then
          walk board fuel x' y' direc' beginPos (bumpHead st)
        else if baseMemOp action = true ∧ headOp st.commands = compl action then
          if headArg st.commands > 1 then
            walk board fuel x' y' direc' beginPos (dropHeadArg st)
          else
            walk board fuel x' y' direc' beginPos (cancelTop st)
        else
          match List.lookup (x', y') st.posIds with
          | some pos =>
            if beginPos ≤ pos ∧
               hasIF (st.commands.take (st.commands.length - pos)) = false then
              some (Except.error CarError.infiniteLoop)
            else
              some (Except.ok (pushCmd st (GOTO, pos)))
          | none =>
            if action = IF then
              match walk board fuel x' y' (perpRight direc)
                      (st.commands.length + 1) (reserveIf st x' y') with
              | none => none
              | some (Except.error e) => some (Except.error e)
              | some (Except.ok st2) =>
                walk board fuel x' y' direc' beginPos
                  (backpatch st2 st.commands.length)
            else
              walk board fuel x' y' direc' beginPos (emit st x' y' action)

/-- `CarProgram._board_to_commands`: walk the four directions in the fixed
order Up, Right, Down, Left, recording `len(commands)` before each path
after the first; return the (forward-order) command list and the three
entry offsets `begs`. -/
def boardToCommands (board : List (List Nat)) (car : Nat × Nat) (fuel : Nat) :
    Option (Except CarError (List (Nat × Nat) × List Nat)) :=
  match walk board fuel car.1 car.2 UP 0 st0 with
  | none => none
  | some (Except.error e) => some (Except.error e)
  | some (Except.ok s1) =>
    match walk board fuel car.1 car.2 RIGHT s1.commands.length s1 with
    | none => none
    | some (Except.error e) => some (Except.error e)
    | some (Except.ok s2) =>
      match walk board fuel car.1 car.2 DOWN s2.commands.length s2 with
      | none => none
      | some (Except.error e) => some (Except.error e)
      | some (Except.ok s3) =>
        match walk board fuel car.1 car.2 LEFT s3.commands.length s3 with
        | none => none
        | some (Except.error e) => some (Except.error e)
        | some (Except.ok s4) =>
          some (Except.ok (s4.commands.reverse,
            [s1.commands.length, s2.commands.length, s3.commands.length]))

/-! ### Source loading (`CarProgram._create_commands`) -/

/-- A loaded program: the IR, the entry table, the two run-time flags
`self.inputastext` / `self.outputastext` (Python `None/True/False` is
`Option Bool`), and the two `self.metadata` flags, which `load_data`
initialises to `False` before parsing. -/
structure LoadedProgram where
  commands : List (Nat × Nat)
  begs : List Nat
  inputastext : Option Bool
  outputastext : Option Bool
  metaIn : Bool
  metaOut : Bool
deriving DecidableEq

/-- Python `bytes.rstrip` whitespace set (space, tab, LF, VT, FF, CR). -/
def isSpaceByte (b : Nat) : Bool :=
  b == 32 || b == 9 || b == 10 || b == 11 || b == 12 || b == 13

def rstripBytes (l : List Nat) : List Nat :=
  (l.reverse.dropWhile isSpaceByte).reverse

/-- `len(line) - len(line.lstrip())`: the count of leading whitespace. -/
def indentOf (l : List Nat) : Nat :=
  (l.takeWhile isSpaceByte).length

/-- `data.split(b'\n')` (byte 10), keeping empty segments. -/
def splitLines : List Nat → List (List Nat)
  | [] => [[]]
  | b :: rest =>
    if b = 10 then [] :: splitLines rest
    else
      match splitLines rest with
      | [] => [[b]]
      | l :: ls => (b :: l) :: ls

/-- ASCII bytes of the directive prefixes and of the magic string. -/
def intextBytes : List Nat := [64, 105, 110, 116, 101, 120, 116]
def outtextBytes : List Nat := [64, 111, 117, 116, 116, 101, 120, 116]
def hbchtMagic : List Nat := [104, 98, 99, 104, 116]

/-- State threaded through the line loop of `_create_commands`. -/
structure ParseCtx where
  inOpt : Option Bool
  outOpt : Option Bool
  metaIn : Bool
  metaOut : Bool
  idone : Bool
  odone : Bool
  lines : List (List Nat)

/-- One iteration of the line loop (lines 507-525): directives set the
flags only when the caller left them `None`; otherwise the comment from
the first `;` is removed, the line is right-stripped, and empty results
are dropped. -/
def procLine (ctx : ParseCtx) (line : List Nat) : ParseCtx :=
  if intextBytes.isPrefixOf line then
    if ctx.inOpt = none then
      { ctx with metaIn := true, inOpt := some true, idone := true }
    else { ctx with idone := true }
  else if outtextBytes.isPrefixOf line then
    if ctx.outOpt = none then
      { ctx with metaOut := true, outOpt := some true, odone := true }
    else { ctx with odone := true }
  else
    let l1 := line.takeWhile (fun b => b != 59)
    let l2 := rstripBytes l1
    if l2 = [] then ctx else { ctx with lines := ctx.lines ++ [l2] }

/-- The whole line loop plus the trailing `if not idone / odone` fixups of
lines 526-531. -/
def procAll (ls : List (List Nat)) (inOpt outOpt : Option Bool) : ParseCtx :=
  let ctx := ls.foldl procLine ⟨inOpt, outOpt, false, false, false, false, []⟩
  let ctx := if ctx.idone = false ∧ ctx.inOpt = some true then
               { ctx with metaIn := true } else ctx
  if ctx.odone = false ∧ ctx.outOpt = some true then
    { ctx with metaOut := true } else ctx

/-- The de-indent step (lines 534-542): if some line has zero leading
whitespace nothing happens; otherwise the fold of `min` starting from
`len(lines[0])` is dropped from every line. -/
def deindent (lines : List (List Nat)) : List (List Nat) :=
  if lines.any (fun l => indentOf l == 0) then lines
  else
    let m := lines.foldl (fun m l => min m (indentOf l))
               (lines.headD []).length
    lines.map (fun l => l.drop m)

/-- One row of the board-building loop (lines 549-570): map each byte to
its tile, replace the unique Car by `NOP` recording its coordinate, and
reject second cars / exits. -/
def buildRow : List Nat → Nat → Nat → Bool → Bool → Option (Nat × Nat) →
    Except CarError (List Nat × Bool × Bool × Option (Nat × Nat))
  | [], _, _, hc, he, cp => Except.ok ([], hc, he, cp)
  | c :: rest, x, y, hc, he, cp =>
    let op := tileOf c
    if op = CAR then
      if hc then Except.error CarError.multipleCars
      else
        match buildRow rest (x + 1) y true he (some (x, y)) with
        | Except.error e => Except.error e
        | Except.ok (row, hc', he', cp') => Except.ok (NOP :: row, hc', he', cp')
    else if op = EXIT ∧ he then Except.error CarError.multipleExits
    else
      match buildRow rest (x + 1) y hc (he || op == EXIT) cp with
      | Except.error e => Except.error e
      | Except.ok (row, hc', he', cp') => Except.ok (op :: row, hc', he', cp')

def buildRows : List (List Nat) → Nat → Bool → Bool → Option (Nat × Nat) →
    Except CarError (List (List Nat) × Bool × Bool × Option (Nat × Nat))
  | [], _, hc, he, cp => Except.ok ([], hc, he, cp)
  | line :: rest, y, hc, he, cp =>
    match buildRow line 0 y hc he cp with
    | Except.error e => Except.error e
    | Except.ok (row, hc', he', cp') =>
      match buildRows rest (y + 1) hc' he' cp' with
      | Except.error e => Except.error e
      | Except.ok (rows, hc'', he'', cp'') =>
        Except.ok (row :: rows, hc'', he'', cp'')

/-- `CarProgram._create_commands`: line processing, de-indent, board
build, car/exit existence checks, then the walker. -/
def createCommands (data : List Nat) (inOpt outOpt : Option Bool)
    (fuel : Nat) : Option (Except CarError LoadedProgram) :=
  let ctx := procAll (splitLines data) inOpt outOpt
  if ctx.lines = [] then some (Except.error CarError.noSourceCode)
  else
    match buildRows (deindent ctx.lines) 0 false false none with
    | Except.error e => some (Except.error e)
    | Except.ok (board, hasCar, hasExit, carPos) =>
      if hasCar = false then some (Except.error CarError.noCar)
      else if hasExit = false then some (Except.error CarError.noExit)
      else
        match carPos with
        | none => some (Except.error CarError.noCar)
        | some car =>
          match boardToCommands board car fuel with
          | none => none
          | some (Except.error e) => some (Except.error e)
          | some (Except.ok (cmds, begs)) =>
            some (Except.ok ⟨cmds, begs, ctx.inOpt, ctx.outOpt,
                             ctx.metaIn, ctx.metaOut⟩)

/-! ### Bytecode codec (`_extract_commands` / `_hbcht_compile`) -/

/-- Little-endian 32-bit word list from the byte list after the header;
`struct.unpack` demands the length be a multiple of 4 (else
`struct.error`). -/
def toWords : List Nat → Option (List Nat)
  | [] => some []
  | b0 :: b1 :: b2 :: b3 :: rest =>
    match toWords rest with
    | none => none
    | some ws => some ((b0 + 256 * b1 + 65536 * b2 + 16777216 * b3) :: ws)
  | _ => none

/-- The pair reconstruction
`tuple((data[i], data[i+1]) for i in range(3, len(data), 2))`, applied to
the words after the three entry words: a lone trailing opcode word makes
`data[i+1]` raise an uncaught `IndexError`. -/
def pairsFrom : List Nat → Except PyError (List (Nat × Nat))
  | [] => Except.ok []
  | [_] => Except.error PyError.indexError
  | x :: a :: rest =>
    match pairsFrom rest with
    | Except.error e => Except.error e
    | Except.ok ps => Except.ok ((x, a) :: ps)

/-- A header flag byte sets the caller's flag only when it is `None` and
the byte is `0x01` (lines 489-494). -/
def flagByte (b : Nat) (opt : Option Bool) : Option Bool :=
  if b = 1 ∧ opt = none then some true else opt

/-- Pair reconstruction plus the `GOTO`/`IF` target validation of
lines 497-500. -/
def extractTail (ws : List Nat) (inO outO : Option Bool) :
    Except PyError (List (Nat × Nat) × List Nat × Option Bool × Option Bool) :=
  match pairsFrom (ws.drop 3) with
  | Except.error e => Except.error e
  | Except.ok cmds =>
    if cmds.any (fun c =>
         (c.1 == GOTO || c.1 == IF) && decide (c.2 ≥ cmds.length)) then
      Except.error (PyError.car CarError.corruptBytecode)
    else Except.ok (cmds, ws.take 3, inO, outO)

/-- Everything in `_extract_commands` after the version gate. -/
def extractBody (data : List Nat) (inOpt outOpt : Option Bool) :
    Except PyError (List (Nat × Nat) × List Nat × Option Bool × Option Bool) :=
  match data.get? 8 with
  | none => Except.error PyError.indexError
  | some b8 =>
    match data.get? 9 with
    | none => Except.error PyError.indexError
    | some b9 =>
      match toWords (data.drop 10) with
      | none => Except.error PyError.structError
      | some ws => extractTail ws (flagByte b8 inOpt) (flagByte b9 outOpt)

/-- `CarProgram._extract_commands`: version gate (`version > 1` fails),
flag bytes 8 and 9 (set the caller's flag only when it is `None`), word
split of `data[10:]`, pair reconstruction, and the `GOTO`/`IF` target
check. -/
def extractCommands (data : List Nat) (inOpt outOpt : Option Bool) :
    Except PyError (List (Nat × Nat) × List Nat × Option Bool × Option Bool) :=
  if data.getD 6 0 > 1 then Except.error (PyError.car CarError.unsupportedVersion)
  else extractBody data inOpt outOpt

/-- The header sniff of `_parse_data` (lines 474-479):
`data[0] == 1 and data[1:6] == b'hbcht' and data[7] == 2`, with any
`IndexError` (input shorter than 8 bytes) caught as `False`. -/
def magicOK (data : List Nat) : Bool :=
  decide (8 ≤ data.length) && data.getD 0 0 == 1 &&
    ((data.drop 1).take 5 == hbchtMagic) && data.getD 7 0 == 2

/-- `createCommands` with its `CarError` lifted into `PyError`. -/
def createCommandsP (data : List Nat) (inOpt outOpt : Option Bool)
    (fuel : Nat) : Option (Except PyError LoadedProgram) :=
  match createCommands data inOpt outOpt fuel with
  | none => none
  | some (Except.error e) => some (Except.error (PyError.car e))
  | some (Except.ok P) => some (Except.ok P)

/-- Package the result of `_extract_commands` into a `LoadedProgram`;
bytecode loading leaves `self.metadata` at the false values `load_data`
just initialised. -/
def wrapExtract
    (X : Except PyError (List (Nat × Nat) × List Nat × Option Bool × Option Bool)) :
    Except PyError LoadedProgram :=
  match X with
  | Except.error e => Except.error e
  | Except.ok (cmds, begs, i, o) => Except.ok ⟨cmds, begs, i, o, false, false⟩

/-- `CarProgram._parse_data` as called from `load_data`: dispatch on the
magic sniff; `load_data` has just reset `self.metadata` to false, and
`_extract_commands` never touches it. -/
def parseData (data : List Nat) (inOpt outOpt : Option Bool) (fuel : Nat) :
    Option (Except PyError LoadedProgram) :=
  if magicOK data then some (wrapExtract (extractCommands data inOpt outOpt))
  else createCommandsP data inOpt outOpt fuel

/-- Little-endian bytes of one 32-bit word for `struct.pack('<I', v)`. -/
def word32Bytes (v : Nat) : List Nat :=
  [v % 256, v / 256 % 256, v / 65536 % 256, v / 16777216 % 256]

/-- The flat word sequence `_hbcht_compile` packs after the entry table:
opcode, argument, opcode, argument, ... -/
def cmdWords (cmds : List (Nat × Nat)) : List Nat :=
  cmds.foldr (fun c acc => c.1 :: c.2 :: acc) []

/-- `CarProgram._hbcht_compile`: header `\1hbcht\1\2`, the two metadata
flag bytes, then `struct.pack('<III', *begs)` and one `'<II'` pack per
instruction.  `struct.pack` raises `struct.error` when the entry table
does not have exactly three entries or a value does not fit in 32 bits;
that failure is modelled as `none`. -/
def hbchtCompile (P : LoadedProgram) : Option (List Nat) :=
  if P.begs.length = 3 ∧
     (P.begs ++ cmdWords P.commands).all (fun v => v < 4294967296) then
    some ([1] ++ hbchtMagic ++ [1, 2] ++
          [if P.metaIn then 1 else 2] ++ [if P.metaOut then 1 else 2] ++
          ((P.begs ++ cmdWords P.commands).map word32Bytes).flatten)
  else none

/-! ### The interpreter (`CarProgram._interpret`) -/

/-- The cell tape: an association list with unique keys; absent keys read
as 0 (the `defaultdict`).  The zero entries a `defaultdict` read creates
are never materialised here; they are filtered from the output anyway. -/
def getCell (cells : List (Int × Int)) (k : Int) : Int :=
  match cells.find? (fun e => e.1 == k) with
  | some e => e.2
  | none => 0

def setCell : List (Int × Int) → Int → Int → List (Int × Int)
  | [], k, v => [(k, v)]
  | e :: t, k, v => if e.1 == k then (k, v) :: t else e :: setCell t k v

/-- `{i: cells[i] for i in range(len(cells))}`. -/
def initCells (inputs : List Int) : List (Int × Int) :=
  inputs.enum.map (fun p => ((p.1 : Int), p.2))

/-- The execution loop of `_interpret` (lines 732-751), one instruction
per unit of fuel.  An instruction index outside the list (a Python
`IndexError`) is also `none`: a validated IR never reaches it.  An opcode
matching no branch falls through to `j += 1`, as in Python. -/
def interpRun (cmds : List (Nat × Nat)) :
    Nat → Nat → Int → List (Int × Int) → Option (List (Int × Int))
  | 0, _, _, _ => none
  | (fuel+1), j, i, cells =>
    match cmds.get? j with
    | none => none
    | some (x, a) =>
      if x = DECREMENT then
        interpRun cmds fuel (j + 1) i (setCell cells i (getCell cells i - a))
      else if x = INCREMENT then
        interpRun cmds fuel (j + 1) i (setCell cells i (getCell cells i + a))
      else if x = PREV then interpRun cmds fuel (j + 1) (i - a) cells
      else if x = NEXT then interpRun cmds fuel (j + 1) (i + a) cells
      else if x = IF then
        if getCell cells i ≠ getCell cells (i - 1) then
          interpRun cmds fuel a i cells
        else interpRun cmds fuel (j + 1) i cells
      else if x = GOTO then interpRun cmds fuel a i cells
      else if x = EXIT then some cells
      else interpRun cmds fuel (j + 1) i cells

/-- Comparison by cell index, the `key=lambda kv: kv[0]` of line 753. -/
def keyLe (p q : Int × Int) : Prop := p.1 ≤ q.1

instance : DecidableRel keyLe := fun p q => inferInstanceAs (Decidable (p.1 ≤ q.1))

instance : IsTotal (Int × Int) keyLe := ⟨fun p q => Int.le_total p.1 q.1⟩

instance : IsTrans (Int × Int) keyLe := ⟨fun _ _ _ h1 h2 => le_trans h1 h2⟩

/-- `sorted(filter(lambda kv: kv[1] != 0, cells.items()), key=...)`: the
keys are unique, so any sort by key produces Python's result. -/
def formatOut (cells : List (Int × Int)) : List (Int × Int) :=
  List.insertionSort keyLe (cells.filter (fun e => e.2 != 0))

/-- Python `j = 0` for path 0, else `j = begs[path - 1]`. -/
def startJ (begs : List Nat) (path : Nat) : Nat :=
  if path = 0 then 0 else begs.getD (path - 1) 0

/-- `CarProgram._interpret` for one path. -/
def interpret (cmds : List (Nat × Nat)) (begs : List Nat) (path : Nat)
    (inputs : List Int) (fuel : Nat) : Option (List (Int × Int)) :=
  (interpRun cmds fuel (startJ begs path) 0 (initCells inputs)).map formatOut

def dirToPath (d : Nat) : Nat :=
  if d = UP then 0 else if d = RIGHT then 1 else if d = DOWN then 2 else 3

/-- `CarProgram.run` for a single explicitly given direction and numeric
(non-text) inputs: the direction is validated, the integer inputs are
passed through unchanged (the `ninput` loop copies non-string values),
and — notably — no check of any kind is applied to negative inputs. -/
def runProgram (P : LoadedProgram) (direction : Nat) (inputs : List Int)
    (fuel : Nat) : Option (Except CarError (List (Int × Int))) :=
  if direction = UP ∨ direction = RIGHT ∨ direction = DOWN ∨ direction = LEFT then
    match interpret P.commands P.begs (dirToPath direction) inputs fuel with
    | none => none
    | some out => some (Except.ok out)
  else some (Except.error CarError.invalidDirection)

/-! ### Concrete inputs used by the theorems -/

/-- The two source bytes of the program `o#`. -/
def oSharp : List Nat := [111, 35]

/-- The board the loader produces for `o#`: the Car cell replaced by
Empty, the Exit beside it. -/
def oSharpBoard : List (List Nat) := [[0, 7]]

/-- Source bytes of the three-line program `o#`, `>v`, `^.`
(`111 35 / 62 118 / 94 46`, newline-separated). -/
def srcB : List Nat := [111, 35, 10, 62, 118, 10, 94, 46]

/-- The IR the walker emits for `srcB`:
`Inc 1, Next 1, Dec 1, Exit, Exit, Goto 0, Exit` with entries 4, 5, 6. -/
def srcCmds : List (Nat × Nat) :=
  [(2, 1), (4, 1), (1, 1), (7, 0), (7, 0), (6, 0), (7, 0)]

def srcProg : LoadedProgram := ⟨srcCmds, [4, 5, 6], none, none, false, false⟩

/-- A complete bytecode file with version byte 0: magic, version 0,
`0x02`, both flag bytes `0x02`, entry table `0,0,0`, one `Exit`
instruction. -/
def bcVersion0 : List Nat :=
  [1, 104, 98, 99, 104, 116, 0, 2, 2, 2] ++ List.replicate 12 0 ++
    [7, 0, 0, 0, 0, 0, 0, 0]

/-- The same bytecode with version byte 1. -/
def bcExit : List Nat :=
  [1, 104, 98, 99, 104, 116, 1, 2, 2, 2] ++ List.replicate 12 0 ++
    [7, 0, 0, 0, 0, 0, 0, 0]

/-- The exit-only program either of those files loads into. -/
def exitProg : LoadedProgram := ⟨[(7, 0)], [0, 0, 0], none, none, false, false⟩

/-- The version-1 bytecode whose input-as-text header byte is `0x01`. -/
def bcIntext : List Nat :=
  [1, 104, 98, 99, 104, 116, 1, 2, 1, 2] ++ List.replicate 12 0 ++
    [7, 0, 0, 0, 0, 0, 0, 0]

/-- What `bcIntext` loads into: the run flag is set, the metadata flag is
not (bytecode loading never touches `self.metadata`). -/
def intextProg : LoadedProgram :=
  ⟨[(7, 0)], [0, 0, 0], some true, none, false, false⟩

/-- A bytecode file whose body is four 32-bit words: the three entry
words plus a single trailing opcode word with no argument word. -/
def bcTruncated : List Nat :=
  [1, 104, 98, 99, 104, 116, 1, 2, 2, 2] ++ List.replicate 16 0

/-- The tape's association list binds each index at most once; this holds
at interpreter start and is preserved by `setCell`. -/
def keysNodup (cells : List (Int × Int)) : Prop :=
  (cells.map Prod.fst).Nodup

/-! ### Walker invariants

`commands` is stored reversed, so in `rOK a b` the instruction `a` is the
*later* (more recently emitted) one. -/

/-- The peephole property of one adjacent pair: when both instructions
are memory actions, their opcodes are neither equal (they would have been
fused) nor complementary (they would have cancelled). -/
def rOK (a b : Nat × Nat) : Prop :=
  baseMemOp a.1 = true → baseMemOp b.1 = true →
    a.1 ≠ b.1 ∧ a.1 ≠ compl b.1

/-- Every adjacent pair of a (reversed) command list satisfies `rOK`. -/
def adjOK : List (Nat × Nat) → Prop
  | [] => True
  | [_] => True
  | a :: b :: t => rOK a b ∧ adjOK (b :: t)

/-- A base list a path walk may never shrink into: its newest entry, if
any, is not a memory action (it is the previous path's terminator or the
pending If placeholder), so the cancellation branch can never delete it
and the fusion branch can never mutate it. -/
def headSafe (base : List (Nat × Nat)) : Prop :=
  ∀ c, base.head? = some c → baseMemOp c.1 = false

/-! ## Theorems -/

/-! ### Generic helper lemmas -/

/-- The Up walk on the board of `o#` never moves: one step of the advance
loop maps `(0,0)` to `(0,0)` over an Empty tile, for ever. -/
lemma walk_oSharp_up (fuel bp : Nat) (st : WalkSt) :
    walk oSharpBoard fuel 0 0 UP bp st = none := by
  induction fuel generalizing bp st with
  | zero => rfl
  | succ n ih =>
    have h : walk oSharpBoard (n + 1) 0 0 UP bp st =
        walk oSharpBoard n 0 0 UP bp st := rfl
    rw [h, ih]

/-- The Down walk on the board of `o#` also never moves. -/
lemma walk_oSharp_down (fuel bp : Nat) (st : WalkSt) :
    walk oSharpBoard fuel 0 0 DOWN bp st = none := by
  induction fuel generalizing bp st with
  | zero => rfl
  | succ n ih =>
    have h : walk oSharpBoard (n + 1) 0 0 DOWN bp st =
        walk oSharpBoard n 0 0 DOWN bp st := rfl
    rw [h, ih]

lemma boardToCommands_oSharp (fuel : Nat) :
    boardToCommands oSharpBoard (0, 0) fuel = none := by
  rw [boardToCommands]
  rw [walk_oSharp_up]

/-- Loading `o#` runs out of any amount of fuel: the pipeline reduces to
the never-returning Up walk. -/
lemma createCommands_oSharp (fuel : Nat) :
    createCommands oSharp none none fuel = none := by
  have h : createCommands oSharp none none fuel =
      (match boardToCommands oSharpBoard (0, 0) fuel with
       | none => none
       | some (Except.error e) => some (Except.error e)
       | some (Except.ok (cmds, begs)) =>
         some (Except.ok ⟨cmds, begs, none, none, false, false⟩)) := rfl
  rw [h, boardToCommands_oSharp]

/-- The only exception the pair reconstruction can raise is an
`IndexError`. -/
lemma pairsFrom_error_eq :
    ∀ n (l : List Nat) e, l.length ≤ n → pairsFrom l = Except.error e →
      e = PyError.indexError := by
  intro n
  induction n with
  | zero =>
    intro l e hl hp
    rcases l with _ | ⟨x, t⟩
    · exact Except.noConfusion hp
    · simp at hl
  | succ n ih =>
    intro l e hl hp
    rcases l with _ | ⟨x, t⟩
    · exact Except.noConfusion hp
    rcases t with _ | ⟨a, rest⟩
    · exact (Except.error.inj hp).symm
    rw [pairsFrom] at hp
    rcases hr : pairsFrom rest with e' | ps <;> rw [hr] at hp
    · have he : e' = e := Except.error.inj hp
      rw [← he]
      exact ih rest e' (by simp at hl ⊢; omega) hr
    · exact Except.noConfusion hp

/-- A list of odd length makes the pair reconstruction raise
`IndexError`: the lone final element is the opcode whose argument word
`data[i+1]` is missing. -/
lemma pairsFrom_odd :
    ∀ n (l : List Nat), l.length ≤ n → l.length % 2 = 1 →
      pairsFrom l = Except.error PyError.indexError := by
  intro n
  induction n with
  | zero =>
    intro l hl hm
    rcases l with _ | ⟨x, t⟩
    · simp at hm
    · simp at hl
  | succ n ih =>
    intro l hl hm
    rcases l with _ | ⟨x, t⟩
    · simp at hm
    rcases t with _ | ⟨a, rest⟩
    · rfl
    have hm' : rest.length % 2 = 1 := by simp at hm; omega
    have hl' : rest.length ≤ n := by simp at hl; omega
    rw [pairsFrom, ih rest hl' hm']

/-! ### C1 -/

/-- C1, refuted: loading the source `o#` does not terminate at all — the
walker's advance loop for the primary Up direction (the first path walked)
stays at the Car's cell for ever, so no fuel makes `createCommands`
return, let alone return a program runnable in every direction. -/
theorem c1_counterexample :
    ¬ ∃ fuel r, createCommands oSharp none none fuel = some r := by
  rintro ⟨fuel, r, h⟩
  rw [createCommands_oSharp] at h
  exact Option.noConfusion h

/-- C1, amended: for the source `o#` the walker terminates immediately at
the Exit for the initial directions Right and Left, but its advance step
diverges for Up and Down (the car never leaves the one-row board's first
column), and therefore loading itself never terminates and no run — for
any direction — is possible. -/
theorem c1_amended_thm :
    (∀ fuel bp st, walk oSharpBoard fuel 0 0 UP bp st = none) ∧
    (∀ fuel bp st, walk oSharpBoard fuel 0 0 DOWN bp st = none) ∧
    walk oSharpBoard 1 0 0 RIGHT 0 st0 =
      some (Except.ok ⟨[(EXIT, 0)], [none], []⟩) ∧
    walk oSharpBoard 1 0 0 LEFT 0 st0 =
      some (Except.ok ⟨[(EXIT, 0)], [none], []⟩) ∧
    (∀ fuel, createCommands oSharp none none fuel = none) :=
  ⟨walk_oSharp_up, walk_oSharp_down, rfl, rfl, createCommands_oSharp⟩

/-! ### C2 -/

/-- C2, refuted: a program loaded from bytecode, run with the negative
input `-1`, does not fail with any error — `run` has no negativity check;
the Exit instruction executes and the result list `[(0, -1)]` is
produced. -/
theorem c2_counterexample :
    parseData bcExit none none 1 = some (Except.ok exitProg) ∧
    runProgram exitProg UP [-1] 1 = some (Except.ok [(0, -1)]) :=
  ⟨rfl, rfl⟩

/-- C2, amended: `CarProgram.run` never rejects negative inputs (the
non-negativity check exists only in the code emitted by the Python and C
compilers); a negative input value is placed on the tape unchanged, the
program executes, and the value appears in the result list. -/
theorem c2_amended_thm (v : Int) (h : v < 0) :
    runProgram exitProg UP [v] 1 = some (Except.ok [(0, v)]) := by
  have hv : (v != 0) = true := by
    simp only [bne_iff_ne, ne_eq]
    omega
  simp [runProgram, UP, RIGHT, DOWN, LEFT, dirToPath, interpret, startJ,
        interpRun, initCells, exitProg, formatOut, List.insertionSort,
        EXIT, DECREMENT, INCREMENT, PREV, NEXT, IF, GOTO, hv, List.enum]

/-- Witness for C2: the amended theorem applied at `v = -1`. -/
theorem c2_witness :
    runProgram exitProg UP [-1] 1 = some (Except.ok [(0, -1)]) :=
  c2_amended_thm (-1) (by decide)

/-! ### C3 -/

/-- C3, refuted: a bytecode file whose version byte is 0 — not 1 — passes
the header shape test and is accepted by the loader without any error. -/
theorem c3_counterexample :
    magicOK bcVersion0 = true ∧ bcVersion0.getD 6 0 = 0 ∧
    parseData bcVersion0 none none 1 = some (Except.ok exitProg) :=
  ⟨rfl, rfl, rfl⟩

/-- `wrapExtract` is error-preserving in both directions. -/
lemma wrapExtract_error
    (X : Except PyError (List (Nat × Nat) × List Nat × Option Bool × Option Bool))
    (e : PyError) : wrapExtract X = Except.error e ↔ X = Except.error e := by
  rcases X with e' | ⟨cmds, begs, i, o⟩ <;> simp [wrapExtract]

/-- The exceptions of `extractTail` are never `UnsupportedBytecodeVersion`. -/
lemma extractTail_no_version (ws : List Nat) (inO outO : Option Bool) :
    extractTail ws inO outO ≠
      Except.error (PyError.car CarError.unsupportedVersion) := by
  intro hc
  rw [extractTail] at hc
  split at hc
  · rename_i e hp
    have he : e = PyError.car CarError.unsupportedVersion :=
      Except.error.inj hc
    have hidx := pairsFrom_error_eq (ws.drop 3).length (ws.drop 3) e le_rfl hp
    rw [hidx] at he
    exact PyError.noConfusion he
  · split at hc
    · exact CarError.noConfusion (PyError.car.inj (Except.error.inj hc))
    · exact Except.noConfusion hc

/-- Once the version gate has passed, no later step of
`_extract_commands` raises `UnsupportedBytecodeVersion`. -/
lemma extract_no_version (data : List Nat) (iOpt oOpt : Option Bool)
    (hv : data.getD 6 0 ≤ 1) :
    extractCommands data iOpt oOpt ≠
      Except.error (PyError.car CarError.unsupportedVersion) := by
  intro hc
  rw [extractCommands, if_neg (by omega), extractBody] at hc
  split at hc
  · exact PyError.noConfusion (Except.error.inj hc)
  split at hc
  · exact PyError.noConfusion (Except.error.inj hc)
  split at hc
  · exact PyError.noConfusion (Except.error.inj hc)
  · rename_i ws hw
    exact extractTail_no_version _ _ _ hc

/-- C3, amended: for header-shaped input the version gate accepts the
version bytes 0 and 1 and fails with `UnsupportedBytecodeVersion` exactly
for version bytes of 2 and above (the Python test is `version > 1`). -/
theorem c3_amended_thm (data : List Nat) (h : magicOK data = true)
    (fuel : Nat) :
    (2 ≤ data.getD 6 0 →
      parseData data none none fuel =
        some (Except.error (PyError.car CarError.unsupportedVersion))) ∧
    (data.getD 6 0 ≤ 1 →
      ∀ r, parseData data none none fuel = some r →
        r ≠ Except.error (PyError.car CarError.unsupportedVersion)) := by
  constructor
  · intro hv
    rw [parseData, if_pos h]
    have hgate : extractCommands data none none =
        Except.error (PyError.car CarError.unsupportedVersion) := by
      rw [extractCommands, if_pos (by omega)]
    rw [hgate]
    rfl
  · intro hv r hr hcontra
    subst hcontra
    rw [parseData, if_pos h] at hr
    have hr2 := Option.some.inj hr
    rw [wrapExtract_error] at hr2
    exact extract_no_version data none none hv hr2

/-- Witness for C3: the amended theorem applied to the version-0 file. -/
theorem c3_witness :
    parseData bcVersion0 none none 1 ≠
      some (Except.error (PyError.car CarError.unsupportedVersion)) := by
  intro hcontra
  exact (c3_amended_thm bcVersion0 rfl 1).2 (by decide)
    (Except.error (PyError.car CarError.unsupportedVersion)) hcontra rfl

/-! ### C8 -/

/-- C8: the classification table.  A redirector met while the car moves
in its paired ignored direction classifies as Empty (`none`) — `v` while
moving Left, `^` while moving Right, `<` while moving Up, `>` while
moving Down — and in every other incoming direction it produces its
action; the forced directions are Dec→Down, Inc→Up, PrevCell→Left,
NextCell→Right.  The final conjunct exercises the pass-through: on the
one-row board `v . #`, a car walking Left crosses the `v` without
emitting anything and without changing direction, reaching the Exit. -/
theorem c8_redirector_table :
    (classify DECREMENT LEFT = none ∧
     classify DECREMENT UP = some DECREMENT ∧
     classify DECREMENT RIGHT = some DECREMENT ∧
     classify DECREMENT DOWN = some DECREMENT) ∧
    (classify INCREMENT RIGHT = none ∧
     classify INCREMENT UP = some INCREMENT ∧
     classify INCREMENT DOWN = some INCREMENT ∧
     classify INCREMENT LEFT = some INCREMENT) ∧
    (classify PREV UP = none ∧
     classify PREV RIGHT = some PREV ∧
     classify PREV DOWN = some PREV ∧
     classify PREV LEFT = some PREV) ∧
    (classify NEXT DOWN = none ∧
     classify NEXT UP = some NEXT ∧
     classify NEXT RIGHT = some NEXT ∧
     classify NEXT LEFT = some NEXT) ∧
    (opsToDirs DECREMENT = DOWN ∧ opsToDirs INCREMENT = UP ∧
     opsToDirs PREV = LEFT ∧ opsToDirs NEXT = RIGHT) ∧
    walk [[DECREMENT, NOP, EXIT]] 2 1 0 LEFT 0 st0 =
      some (Except.ok ⟨[(EXIT, 0)], [none], []⟩) :=
  ⟨by decide, by decide, by decide, by decide, by decide, rfl⟩

/-! ### C9 -/

/-- C9: a bytecode body holding an even number of 32-bit words of at
least four (three entry words plus an instruction stream truncated after
an opcode) makes the pair reconstruction raise an uncaught `IndexError`,
which is not a `CarError`; the concrete file `bcTruncated` shows the
whole loader surfacing it. -/
theorem c9_truncated_bytecode :
    (∀ ws : List Nat, ws.length % 2 = 0 → 4 ≤ ws.length →
       pairsFrom (ws.drop 3) = Except.error PyError.indexError) ∧
    parseData bcTruncated none none 1 =
      some (Except.error PyError.indexError) ∧
    (∀ e : CarError, PyError.indexError ≠ PyError.car e) := by
  refine ⟨?_, rfl, ?_⟩
  · intro ws h2 h4
    refine pairsFrom_odd (ws.drop 3).length (ws.drop 3) le_rfl ?_
    simp only [List.length_drop]
    omega
  · intro e h
    exact PyError.noConfusion h

/-- Witness for C9: the general statement applied to the four-word body
`0, 0, 0, 0`. -/
theorem c9_witness :
    pairsFrom (([0, 0, 0, 0] : List Nat).drop 3) =
      Except.error PyError.indexError :=
  c9_truncated_bytecode.1 [0, 0, 0, 0] (by decide) (by decide)

/-! ### C4 -/

/-- C4, refuted: a program loaded from bytecode whose input-as-text
header byte is set acquires `inputastext = some true` but — since
bytecode loading never touches `self.metadata`, which the encoder writes
from — re-encoding it clears the header byte, and decoding the result
leaves the flag unset: the flags do not round-trip. -/
theorem c4_counterexample :
    parseData bcIntext none none 1 = some (Except.ok intextProg) ∧
    hbchtCompile intextProg = some bcExit ∧
    parseData bcExit none none 1 = some (Except.ok exitProg) ∧
    exitProg.inputastext ≠ intextProg.inputastext :=
  ⟨rfl, rfl, rfl, by decide⟩

/-- Decoding the little-endian byte rendering of a word list recovers
the word list, provided every word fits in 32 bits. -/
lemma toWords_encode :
    ∀ ws : List Nat, (∀ w ∈ ws, w < 4294967296) →
      toWords ((ws.map word32Bytes).flatten) = some ws := by
  intro ws
  induction ws with
  | nil => intro _; rfl
  | cons w t ih =>
    intro h
    have hw : w < 4294967296 := h w (List.mem_cons_self w t)
    have ht := ih (fun x hx => h x (List.mem_cons_of_mem w hx))
    show toWords (word32Bytes w ++ (t.map word32Bytes).flatten) = some (w :: t)
    rw [word32Bytes]
    show toWords (w % 256 :: w / 256 % 256 :: w / 65536 % 256 ::
      w / 16777216 % 256 :: (t.map word32Bytes).flatten) = some (w :: t)
    rw [toWords, ht]
    have : w % 256 + 256 * (w / 256 % 256) + 65536 * (w / 65536 % 256) +
        16777216 * (w / 16777216 % 256) = w := by omega
    rw [this]

/-- The pair reconstruction inverts the flat word rendering of the
instruction list. -/
lemma pairsFrom_cmdWords :
    ∀ cmds : List (Nat × Nat), pairsFrom (cmdWords cmds) = Except.ok cmds := by
  intro cmds
  induction cmds with
  | nil => rfl
  | cons c t ih =>
    show pairsFrom (c.1 :: c.2 :: cmdWords t) = Except.ok (c :: t)
    rw [pairsFrom, ih]

/-- C4, amended: the instruction sequence and the entry table always
round-trip through the codec (whenever the encoder succeeds, i.e. all
words fit in 32 bits and the entry table has three entries, and the
`GOTO`/`IF` targets are in range as every load guarantees); the two text
flags, however, round-trip only through the `metadata` fields — a decoded
flag is set exactly when the encoded program's metadata flag was set, not
when its run flag was. -/
theorem c4_amended_thm (P : LoadedProgram) (bs : List Nat)
    (henc : hbchtCompile P = some bs)
    (hval : ∀ c ∈ P.commands, (c.1 = GOTO ∨ c.1 = IF) →
      c.2 < P.commands.length) :
    extractCommands bs none none =
      Except.ok (P.commands, P.begs,
        (if P.metaIn then some true else none),
        (if P.metaOut then some true else none)) := by
  rw [hbchtCompile] at henc
  split at henc
  case isFalse => exact Option.noConfusion henc
  case isTrue hcond =>
    obtain ⟨hlen3, hbound⟩ := hcond
    have hbs := (Option.some.inj henc).symm
    subst hbs
    have hwords : toWords ((([1] ++ hbchtMagic ++ [1, 2] ++
        [if P.metaIn then 1 else 2] ++ [if P.metaOut then 1 else 2] ++
        ((P.begs ++ cmdWords P.commands).map word32Bytes).flatten)).drop 10) =
        some (P.begs ++ cmdWords P.commands) := by
      have hdrop : (([1] ++ hbchtMagic ++ [1, 2] ++
          [if P.metaIn then 1 else 2] ++ [if P.metaOut then 1 else 2] ++
          ((P.begs ++ cmdWords P.commands).map word32Bytes).flatten)).drop 10 =
          ((P.begs ++ cmdWords P.commands).map word32Bytes).flatten := by
        simp [hbchtMagic]
      rw [hdrop]
      refine toWords_encode _ ?_
      intro w hwmem
      have := List.all_eq_true.mp hbound w hwmem
      simpa using this
    rw [extractCommands]
    rw [if_neg (by simp [hbchtMagic])]
    rw [extractBody]
    have h8 : (([1] ++ hbchtMagic ++ [1, 2] ++
        [if P.metaIn then 1 else 2] ++ [if P.metaOut then 1 else 2] ++
        ((P.begs ++ cmdWords P.commands).map word32Bytes).flatten)).get? 8 =
        some (if P.metaIn then 1 else 2) := by
      simp [hbchtMagic]
    have h9 : (([1] ++ hbchtMagic ++ [1, 2] ++
        [if P.metaIn then 1 else 2] ++ [if P.metaOut then 1 else 2] ++
        ((P.begs ++ cmdWords P.commands).map word32Bytes).flatten)).get? 9 =
        some (if P.metaOut then 1 else 2) := by
      simp [hbchtMagic]
    have hdrop3 : (P.begs ++ cmdWords P.commands).drop 3 = cmdWords P.commands := by
      rw [← hlen3, List.drop_left]
    have htake3 : (P.begs ++ cmdWords P.commands).take 3 = P.begs := by
      rw [← hlen3, List.take_left]
    have hany : (P.commands.any (fun c =>
        (c.1 == GOTO || c.1 == IF) && decide (c.2 ≥ P.commands.length))) = false := by
      rw [List.any_eq_false]
      intro c hc
      simp only [Bool.and_eq_true, Bool.or_eq_true, beq_iff_eq, decide_eq_true_eq,
        not_and, ge_iff_le, not_le]
      intro hop
      have : c.1 = GOTO ∨ c.1 = IF := by
        rcases hop with h | h
        · exact Or.inl h
        · exact Or.inr h
      exact hval c hc this
    have hin : flagByte (if P.metaIn then 1 else 2) none =
        (if P.metaIn then some true else none) := by
      cases P.metaIn <;> simp [flagByte]
    have hout : flagByte (if P.metaOut then 1 else 2) none =
        (if P.metaOut then some true else none) := by
      cases P.metaOut <;> simp [flagByte]
    simp only [extractBody, h8, h9, hwords, extractTail, hdrop3, htake3,
      pairsFrom_cmdWords, hany, hin, hout]
    simp

/-- Witness for C4: the amended round-trip applied to the exit-only
program, whose encoding is the concrete file `bcExit`. -/
theorem c4_witness :
    extractCommands bcExit none none =
      Except.ok (exitProg.commands, exitProg.begs,
        (if exitProg.metaIn then some true else none),
        (if exitProg.metaOut then some true else none)) :=
  c4_amended_thm exitProg bcExit rfl (by decide)

/-! ### C10 -/

/-- The only `CarError` the walker ever raises is `InfiniteLoop`. -/
lemma walk_error (board : List (List Nat)) :
    ∀ fuel x y d bp st e,
      walk board fuel x y d bp st = some (Except.error e) →
      e = CarError.infiniteLoop := by
  intro fuel
  induction fuel with
  | zero =>
    intro x y d bp st e h
    exact Option.noConfusion h
  | succ n ih =>
    intro x y d bp st e h
    simp only [walk] at h
    split at h
    · exact ih _ _ _ _ _ _ h
    split at h
    · exact Except.noConfusion (Option.some.inj h)
    split at h
    · exact ih _ _ _ _ _ _ h
    · split at h
      · exact ih _ _ _ _ _ _ h
      split at h
      · split at h
        · exact ih _ _ _ _ _ _ h
        · exact ih _ _ _ _ _ _ h
      · split at h
        · split at h
          · exact (Except.error.inj (Option.some.inj h)).symm
          · exact Except.noConfusion (Option.some.inj h)
        · split at h
          · split at h
            · exact Option.noConfusion h
            · rename_i e' heq
              have he' := ih _ _ _ _ _ _ heq
              have : (Except.error e' : Except CarError WalkSt) =
                  Except.error e := Option.some.inj h
              rw [← Except.error.inj this]
              exact he'
            · exact ih _ _ _ _ _ _ h
          · exact ih _ _ _ _ _ _ h

/-- The only `CarError` `_board_to_commands` ever raises is
`InfiniteLoop`. -/
lemma boardToCommands_error (board : List (List Nat)) (car : Nat × Nat)
    (fuel : Nat) (e : CarError)
    (h : boardToCommands board car fuel = some (Except.error e)) :
    e = CarError.infiniteLoop := by
  rw [boardToCommands] at h
  split at h
  · exact Option.noConfusion h
  · rename_i heq
    have := Option.some.inj h
    rw [← Except.error.inj this]
    exact walk_error board _ _ _ _ _ _ _ heq
  · split at h
    · exact Option.noConfusion h
    · rename_i heq
      have := Option.some.inj h
      rw [← Except.error.inj this]
      exact walk_error board _ _ _ _ _ _ _ heq
    · split at h
      · exact Option.noConfusion h
      · rename_i heq
        have := Option.some.inj h
        rw [← Except.error.inj this]
        exact walk_error board _ _ _ _ _ _ _ heq
      · split at h
        · exact Option.noConfusion h
        · rename_i heq
          have := Option.some.inj h
          rw [← Except.error.inj this]
          exact walk_error board _ _ _ _ _ _ _ heq
        · exact Except.noConfusion (Option.some.inj h)

/-- The board builder raises only `MultipleCars` or `MultipleExits`. -/
lemma buildRow_error :
    ∀ (l : List Nat) x y hc he cp e,
      buildRow l x y hc he cp = Except.error e →
      e = CarError.multipleCars ∨ e = CarError.multipleExits := by
  intro l
  induction l with
  | nil =>
    intro x y hc he cp e h
    exact Except.noConfusion h
  | cons c rest ih =>
    intro x y hc he cp e h
    rw [buildRow] at h
    split at h
    · split at h
      · exact Or.inl (Except.error.inj h).symm
      · split at h
        · rename_i heq
          rw [← Except.error.inj h]
          exact ih _ _ _ _ _ _ heq
        · exact Except.noConfusion h
    · split at h
      · exact Or.inr (Except.error.inj h).symm
      · split at h
        · rename_i heq
          rw [← Except.error.inj h]
          exact ih _ _ _ _ _ _ heq
        · exact Except.noConfusion h

lemma buildRows_error :
    ∀ (ls : List (List Nat)) y hc he cp e,
      buildRows ls y hc he cp = Except.error e →
      e = CarError.multipleCars ∨ e = CarError.multipleExits := by
  intro ls
  induction ls with
  | nil =>
    intro y hc he cp e h
    exact Except.noConfusion h
  | cons line rest ih =>
    intro y hc he cp e h
    rw [buildRows] at h
    split at h
    · rename_i heq
      rw [← Except.error.inj h]
      exact buildRow_error _ _ _ _ _ _ _ heq
    · split at h
      · rename_i heq
        rw [← Except.error.inj h]
        exact ih _ _ _ _ _ heq
      · exact Except.noConfusion h

/-- Source loading surfaces only the six source-load errors. -/
lemma createCommands_error (data : List Nat) (iOpt oOpt : Option Bool)
    (fuel : Nat) (e : CarError)
    (h : createCommands data iOpt oOpt fuel = some (Except.error e)) :
    e = CarError.noSourceCode ∨ e = CarError.multipleCars ∨
    e = CarError.multipleExits ∨ e = CarError.noCar ∨
    e = CarError.noExit ∨ e = CarError.infiniteLoop := by
  rw [createCommands] at h
  split at h
  · have := Except.error.inj (Option.some.inj h)
    exact Or.inl this.symm
  split at h
  · rename_i heq
    have := Except.error.inj (Option.some.inj h)
    rw [← this]
    rcases buildRows_error _ _ _ _ _ _ heq with h1 | h1
    · exact Or.inr (Or.inl h1)
    · exact Or.inr (Or.inr (Or.inl h1))
  split at h
  · have := Except.error.inj (Option.some.inj h)
    exact Or.inr (Or.inr (Or.inr (Or.inl this.symm)))
  split at h
  · have := Except.error.inj (Option.some.inj h)
    exact Or.inr (Or.inr (Or.inr (Or.inr (Or.inl this.symm))))
  split at h
  · have := Except.error.inj (Option.some.inj h)
    exact Or.inr (Or.inr (Or.inr (Or.inl this.symm)))
  split at h
  · exact Option.noConfusion h
  · rename_i heq
    have := Except.error.inj (Option.some.inj h)
    rw [← this]
    exact Or.inr (Or.inr (Or.inr (Or.inr (Or.inr
      (boardToCommands_error _ _ _ _ heq)))))
  · exact Except.noConfusion (Option.some.inj h)

/-- C10: any input failing the magic sniff — in particular any input
shorter than 8 bytes — is dispatched to the source-text loader, never to
the bytecode decoder, and the errors it can surface are exactly the
source-load kinds (`NoSourceCode`, `MultipleCars`, `MultipleExits`,
`NoCar`, `NoExit`, `InfiniteLoop`) — no bytecode error and no uncaught
bytecode exception. -/
theorem c10_source_dispatch :
    (∀ data : List Nat, data.length < 8 → magicOK data = false) ∧
    (∀ (data : List Nat) iOpt oOpt fuel, magicOK data = false →
       parseData data iOpt oOpt fuel = createCommandsP data iOpt oOpt fuel) ∧
    (∀ (data : List Nat) iOpt oOpt fuel e, magicOK data = false →
       parseData data iOpt oOpt fuel = some (Except.error e) →
       e = PyError.car CarError.noSourceCode ∨
       e = PyError.car CarError.multipleCars ∨
       e = PyError.car CarError.multipleExits ∨
       e = PyError.car CarError.noCar ∨
       e = PyError.car CarError.noExit ∨
       e = PyError.car CarError.infiniteLoop) := by
  refine ⟨?_, ?_, ?_⟩
  · intro data hlen
    rw [magicOK]
    have : decide (8 ≤ data.length) = false := by
      rw [decide_eq_false_iff_not]
      omega
    rw [this]
    rfl
  · intro data iOpt oOpt fuel hm
    rw [parseData, if_neg (by rw [hm]; exact Bool.false_ne_true)]
  · intro data iOpt oOpt fuel e hm hp
    rw [parseData, if_neg (by rw [hm]; exact Bool.false_ne_true),
        createCommandsP] at hp
    split at hp
    · exact Option.noConfusion hp
    · rename_i e' heq
      have := Except.error.inj (Option.some.inj hp)
      rw [← this]
      rcases createCommands_error _ _ _ _ _ heq with h | h | h | h | h | h <;>
        rw [h]
      · exact Or.inl rfl
      · exact Or.inr (Or.inl rfl)
      · exact Or.inr (Or.inr (Or.inl rfl))
      · exact Or.inr (Or.inr (Or.inr (Or.inl rfl)))
      · exact Or.inr (Or.inr (Or.inr (Or.inr (Or.inl rfl))))
      · exact Or.inr (Or.inr (Or.inr (Or.inr (Or.inr rfl))))
    · exact Except.noConfusion (Option.some.inj hp)

/-- Witness for C10: the one-byte input `0` fails the sniff and is
parsed as source, failing with the source error `NoCar`. -/
theorem c10_witness :
    magicOK [0] = false ∧
    parseData [0] none none 1 = createCommandsP [0] none none 1 :=
  ⟨c10_source_dispatch.1 [0] (by decide),
   c10_source_dispatch.2.1 [0] none none 1 (c10_source_dispatch.1 [0] (by decide))⟩

/-! ### C5 and C6: the walker master induction -/

lemma memOp_cases (a : Nat) (h : baseMemOp a = true) :
    a = DECREMENT ∨ a = INCREMENT ∨ a = PREV ∨ a = NEXT := by
  rw [baseMemOp] at h
  simp only [Bool.or_eq_true, beq_iff_eq] at h
  tauto

lemma compl_compl (a : Nat) (h : baseMemOp a = true) : compl (compl a) = a := by
  rcases memOp_cases a h with h1 | h1 | h1 | h1 <;> rw [h1] <;> rfl

lemma compl_mem (a : Nat) (h : baseMemOp a = true) :
    baseMemOp (compl a) = true := by
  rcases memOp_cases a h with h1 | h1 | h1 | h1 <;> rw [h1] <;> rfl

lemma adjOK_cons (a : Nat × Nat) (t : List (Nat × Nat)) :
    adjOK (a :: t) ↔ (∀ b, t.head? = some b → rOK a b) ∧ adjOK t := by
  rcases t with _ | ⟨b, t'⟩
  · simp [adjOK]
  · rw [adjOK]
    constructor
    · rintro ⟨h1, h2⟩
      exact ⟨fun b' hb' => by rw [← Option.some.inj hb']; exact h1, h2⟩
    · rintro ⟨h1, h2⟩
      exact ⟨h1 b rfl, h2⟩

lemma adjOK_tail (a : Nat × Nat) (t : List (Nat × Nat))
    (h : adjOK (a :: t)) : adjOK t :=
  ((adjOK_cons a t).mp h).2

lemma adjOK_cons_nonmem (c : Nat × Nat) (t : List (Nat × Nat))
    (hc : baseMemOp c.1 = false) (h : adjOK t) : adjOK (c :: t) := by
  rw [adjOK_cons]
  refine ⟨fun b _ => ?_, h⟩
  intro hmem
  rw [hc] at hmem
  exact Bool.noConfusion hmem

lemma adjOK_replaceHead (o x y : Nat) (t : List (Nat × Nat))
    (h : adjOK ((o, x) :: t)) : adjOK ((o, y) :: t) := by
  rw [adjOK_cons] at h ⊢
  exact ⟨fun b hb => h.1 b hb, h.2⟩

lemma adjOK_set_nonmem (v : Nat × Nat) (hv : baseMemOp v.1 = false) :
    ∀ (l : List (Nat × Nat)) (n : Nat), adjOK l → adjOK (l.set n v) := by
  intro l
  induction l with
  | nil => intro n _; exact trivial
  | cons a t ih =>
    intro n h
    rcases n with _ | m
    · rw [List.set_cons_zero]
      exact adjOK_cons_nonmem v t hv (adjOK_tail a t h)
    · rw [List.set_cons_succ]
      rw [adjOK_cons] at h ⊢
      refine ⟨?_, ih m h.2⟩
      intro b hb
      rcases t with _ | ⟨c, t'⟩
      · exact Option.noConfusion hb
      rcases m with _ | m'
      · rw [List.set_cons_zero] at hb
        have hbv : v = b := Option.some.inj hb
        intro _ hmem
        rw [← hbv, hv] at hmem
        exact Bool.noConfusion hmem
      · rw [List.set_cons_succ] at hb
        exact h.1 b (by rw [← Option.some.inj hb]; rfl)

/-- Setting the element just after a prefix of known length. -/
lemma setAppendLen (xs : List (Nat × Nat)) (y y' : Nat × Nat)
    (zs : List (Nat × Nat)) :
    (xs ++ y :: zs).set xs.length y' = xs ++ y' :: zs := by
  induction xs with
  | nil => rfl
  | cons a t ih =>
    show (a :: (t ++ y :: zs)).set (t.length + 1) y' = a :: (t ++ y' :: zs)
    rw [List.set_cons_succ, ih]

lemma cancelTop_commands (st : WalkSt) :
    (cancelTop st).commands = st.commands.tail := by
  rw [cancelTop]
  rcases st.xys with _ | ⟨h1, t⟩
  · rfl
  · rcases h1 with _ | pp <;> rfl

/-- Classification yields only If or a memory action. -/
lemma classify_mem (p d a : Nat) (h : classify p d = some a) :
    a = IF ∨ baseMemOp a = true := by
  rw [classify] at h
  split at h
  · exact Or.inr (by rw [← Option.some.inj h]; rfl)
  split at h
  · exact Or.inr (by rw [← Option.some.inj h]; rfl)
  split at h
  · exact Or.inr (by rw [← Option.some.inj h]; rfl)
  split at h
  · exact Or.inr (by rw [← Option.some.inj h]; rfl)
  split at h
  · exact Or.inl (Option.some.inj h).symm
  · exact Option.noConfusion h

/-- When the newest emitted instruction is a memory action, the command
list extends strictly beyond any head-safe base. -/
lemma suffix_step (cs base q : List (Nat × Nat))
    (hq : cs = q ++ base) (hsafe : headSafe base)
    (hmem : baseMemOp (headOp cs) = true) :
    ∃ hd qt, q = hd :: qt ∧ cs = hd :: (qt ++ base) := by
  rcases q with _ | ⟨qh, qt⟩
  · exfalso
    rcases base with _ | ⟨b, bt⟩
    · rw [hq] at hmem
      exact Bool.noConfusion hmem
    · have hb := hsafe b rfl
      rw [hq] at hmem
      have he : headOp ([] ++ b :: bt) = b.1 := rfl
      rw [he, hb] at hmem
      exact Bool.noConfusion hmem
  · exact ⟨qh, qt, rfl, by rw [hq]; rfl⟩

lemma headOp_eq (cs : List (Nat × Nat)) (b : Nat × Nat)
    (hb : cs.head? = some b) : headOp cs = b.1 := by
  rcases cs with _ | ⟨a, t⟩
  · exact Option.noConfusion hb
  · have : a = b := Option.some.inj hb
    rw [headOp, this]

/-- The master walker invariant: starting from a state whose commands
extend a head-safe base and satisfy the peephole property, a successful
path walk returns a state that still satisfies the peephole property and
whose commands strictly extend the base, topped by the path's terminator
(an `Exit` or a `Goto`). -/
lemma walk_master (board : List (List Nat)) :
    ∀ fuel x y d bp st res,
      walk board fuel x y d bp st = some res →
      ∀ base q, st.commands = q ++ base → headSafe base → adjOK st.commands →
      ∀ st', res = Except.ok st' →
        adjOK st'.commands ∧
        ∃ c q', (c.1 = EXIT ∨ c.1 = GOTO) ∧
          st'.commands = c :: (q' ++ base) := by
  intro fuel
  induction fuel with
  | zero =>
    intro x y d bp st res h
    exact Option.noConfusion h
  | succ n ih =>
    intro x y d bp st res h base q hq hsafe hadj st' hres
    subst hres
    simp only [walk] at h
    split at h
    · exact ih _ _ _ _ _ _ h base q hq hsafe hadj st' rfl
    split at h
    · -- Exit tile: terminator appended, path returns
      have hst2 : pushCmd st (EXIT, 0) = st' :=
        Except.ok.inj (Option.some.inj h)
      subst hst2
      refine ⟨adjOK_cons_nonmem (EXIT, 0) st.commands (by decide) hadj,
              (EXIT, 0), q, Or.inl rfl, ?_⟩
      show (EXIT, 0) :: st.commands = (EXIT, 0) :: (q ++ base)
      rw [hq]
    split at h
    · exact ih _ _ _ _ _ _ h base q hq hsafe hadj st' rfl
    · rename_i action hcl
      split at h
      · -- run-length fusion
        rename_i hc1
        obtain ⟨hmem, hhead⟩ := hc1
        obtain ⟨hd, qt, hqq, hcs⟩ := suffix_step st.commands base q hq hsafe
          (by rw [hhead]; exact hmem)
        have hbump : (bumpHead st).commands = (hd.1, hd.2 + 1) :: (qt ++ base) := by
          show (match st.commands with
                | [] => []
                | c :: t => (c.1, c.2 + 1) :: t) = _
          rw [hcs]
        have hadj0 : adjOK (hd :: (qt ++ base)) := by rw [← hcs]; exact hadj
        have hadj2 : adjOK (bumpHead st).commands := by
          rw [hbump]
          exact adjOK_replaceHead hd.1 hd.2 (hd.2 + 1) _ hadj0
        exact ih _ _ _ _ _ _ h base ((hd.1, hd.2 + 1) :: qt) hbump hsafe hadj2 st' rfl
      · rename_i hnc1
        split at h
        · -- inverse cancellation
          rename_i hc2
          obtain ⟨hmem, hhead⟩ := hc2
          obtain ⟨hd, qt, hqq, hcs⟩ := suffix_step st.commands base q hq hsafe
            (by rw [hhead]; exact compl_mem action hmem)
          have hadj0 : adjOK (hd :: (qt ++ base)) := by rw [← hcs]; exact hadj
          split at h
          · -- argument decrement
            have hdropc : (dropHeadArg st).commands =
                (hd.1, hd.2 - 1) :: (qt ++ base) := by
              show (match st.commands with
                    | [] => []
                    | c :: t => (c.1, c.2 - 1) :: t) = _
              rw [hcs]
            have hadj2 : adjOK (dropHeadArg st).commands := by
              rw [hdropc]
              exact adjOK_replaceHead hd.1 hd.2 (hd.2 - 1) _ hadj0
            exact ih _ _ _ _ _ _ h base ((hd.1, hd.2 - 1) :: qt) hdropc hsafe
              hadj2 st' rfl
          · -- full deletion of the top instruction
            have hcanc : (cancelTop st).commands = qt ++ base := by
              rw [cancelTop_commands, hcs]
              rfl
            have hadj2 : adjOK (cancelTop st).commands := by
              rw [hcanc]
              exact adjOK_tail _ _ hadj0
            exact ih _ _ _ _ _ _ h base qt hcanc hsafe hadj2 st' rfl
        · rename_i hnc2
          split at h
          · -- join: a Goto is appended and the path returns
            rename_i pos hlook
            split at h
            · exact Except.noConfusion (Option.some.inj h)
            · have hst2 : pushCmd st (GOTO, pos) = st' :=
                Except.ok.inj (Option.some.inj h)
              subst hst2
              refine ⟨adjOK_cons_nonmem (GOTO, pos) st.commands rfl hadj,
                      (GOTO, pos), q, Or.inr rfl, ?_⟩
              show (GOTO, pos) :: st.commands = (GOTO, pos) :: (q ++ base)
              rw [hq]
          · rename_i hlook
            split at h
            · -- If: reserve, recurse, back-patch, continue
              rename_i hif
              split at h
              · exact Option.noConfusion h
              · exact Except.noConfusion (Option.some.inj h)
              · rename_i st2 heq2
                have hsafe2 : headSafe ((NOP, 0) :: st.commands) := by
                  intro c hc
                  rw [← Option.some.inj hc]
                  rfl
                have hadjr : adjOK ((NOP, 0) :: st.commands) :=
                  adjOK_cons_nonmem _ _ (by decide) hadj
                have inner := ih _ _ _ _ _ _ heq2 ((NOP, 0) :: st.commands) []
                  rfl hsafe2 hadjr st2 rfl
                obtain ⟨hadjst2, c2, q2, hterm2, hst2c⟩ := inner
                have hlen2 : st2.commands.length =
                    q2.length + 1 + (st.commands.length + 1) := by
                  rw [hst2c]
                  simp [List.length_append]
                  omega
                have hbpc : (backpatch st2 st.commands.length).commands =
                    (c2 :: q2) ++ ((IF, st2.commands.length) :: st.commands) := by
                  show st2.commands.set
                    (st2.commands.length - 1 - st.commands.length)
                    (IF, st2.commands.length) = _
                  have hidx : st2.commands.length - 1 - st.commands.length =
                      (c2 :: q2).length := by
                    rw [hlen2]
                    simp
                  rw [hidx]
                  generalize (IF, st2.commands.length) = v
                  rw [hst2c]
                  have hassoc : c2 :: (q2 ++ ((NOP, 0) :: st.commands)) =
                      (c2 :: q2) ++ ((NOP, 0) :: st.commands) := rfl
                  rw [hassoc]
                  exact setAppendLen (c2 :: q2) (NOP, 0) v st.commands
                have hadj3 : adjOK (backpatch st2 st.commands.length).commands :=
                  adjOK_set_nonmem (IF, st2.commands.length) rfl st2.commands _
                    hadjst2
                have hsfx : (backpatch st2 st.commands.length).commands =
                    ((c2 :: q2) ++ (IF, st2.commands.length) :: q) ++ base := by
                  rw [hbpc, hq]
                  simp
                exact ih _ _ _ _ _ _ h base _ hsfx hsafe hadj3 st' rfl
            · -- fresh memory-action emission
              rename_i hnif
              have hmem : baseMemOp action = true := by
                rcases classify_mem _ _ _ hcl with h1 | h1
                · exact absurd h1 hnif
                · exact h1
              have hadj2 : adjOK (emit st (stepPos board x y d).1
                  (stepPos board x y d).2 action).commands := by
                show adjOK ((action, 1) :: st.commands)
                rw [adjOK_cons]
                refine ⟨?_, hadj⟩
                intro b hb hm1 hm2
                have hh := headOp_eq st.commands b hb
                constructor
                · intro heqab
                  exact hnc1 ⟨hmem, by rw [hh, ← heqab]⟩
                · intro heqc
                  apply hnc2
                  refine ⟨hmem, ?_⟩
                  rw [hh]
                  have heqc' : action = compl b.1 := heqc
                  have hcc : compl action = b.1 := by
                    rw [heqc']
                    exact compl_compl b.1 hm2
                  exact hcc.symm
              refine ih _ _ _ _ _ _ h base ((action, 1) :: q) ?_ hsafe hadj2 st' rfl
              show (action, 1) :: st.commands = (action, 1) :: (q ++ base)
              rw [hq]

/-- The result of a successful `_board_to_commands`: the (reversed)
emitted list satisfies the peephole pair property throughout, and every
entry offset is strictly below the final instruction count. -/
lemma boardToCommands_master (board : List (List Nat)) (car : Nat × Nat)
    (fuel : Nat) (cmds : List (Nat × Nat)) (begs : List Nat)
    (h : boardToCommands board car fuel = some (Except.ok (cmds, begs))) :
    adjOK cmds.reverse ∧ ∀ b ∈ begs, b < cmds.length := by
  rw [boardToCommands] at h
  split at h
  · exact Option.noConfusion h
  · exact Except.noConfusion (Option.some.inj h)
  · rename_i s1 heq1
    split at h
    · exact Option.noConfusion h
    · exact Except.noConfusion (Option.some.inj h)
    · rename_i s2 heq2
      split at h
      · exact Option.noConfusion h
      · exact Except.noConfusion (Option.some.inj h)
      · rename_i s3 heq3
        split at h
        · exact Option.noConfusion h
        · exact Except.noConfusion (Option.some.inj h)
        · rename_i s4 heq4
          have hpair := Except.ok.inj (Option.some.inj h)
          have hcmds : s4.commands.reverse = cmds := congrArg Prod.fst hpair
          have hbegs : [s1.commands.length, s2.commands.length,
              s3.commands.length] = begs := congrArg Prod.snd hpair
          have hsafe0 : headSafe ([] : List (Nat × Nat)) :=
            fun c hc => Option.noConfusion hc
          have m1 := walk_master board fuel car.1 car.2 UP 0 st0 _ heq1 [] []
            rfl hsafe0 trivial s1 rfl
          obtain ⟨hadj1, c1, q1, hterm1, hc1⟩ := m1
          have hsafe1 : headSafe s1.commands := by
            intro c hc
            rw [hc1] at hc
            rw [← Option.some.inj hc]
            rcases hterm1 with ht | ht <;> rw [ht] <;> rfl
          have m2 := walk_master board fuel car.1 car.2 RIGHT
            s1.commands.length s1 _ heq2 s1.commands [] rfl hsafe1 hadj1 s2 rfl
          obtain ⟨hadj2, c2, q2, hterm2, hc2⟩ := m2
          have hsafe2 : headSafe s2.commands := by
            intro c hc
            rw [hc2] at hc
            rw [← Option.some.inj hc]
            rcases hterm2 with ht | ht <;> rw [ht] <;> rfl
          have m3 := walk_master board fuel car.1 car.2 DOWN
            s2.commands.length s2 _ heq3 s2.commands [] rfl hsafe2 hadj2 s3 rfl
          obtain ⟨hadj3, c3, q3, hterm3, hc3⟩ := m3
          have hsafe3 : headSafe s3.commands := by
            intro c hc
            rw [hc3] at hc
            rw [← Option.some.inj hc]
            rcases hterm3 with ht | ht <;> rw [ht] <;> rfl
          have m4 := walk_master board fuel car.1 car.2 LEFT
            s3.commands.length s3 _ heq4 s3.commands [] rfl hsafe3 hadj3 s4 rfl
          obtain ⟨hadj4, c4, q4, hterm4, hc4⟩ := m4
          have hl2 : s1.commands.length < s2.commands.length := by
            rw [hc2]
            simp
            omega
          have hl3 : s2.commands.length < s3.commands.length := by
            rw [hc3]
            simp
            omega
          have hl4 : s3.commands.length < s4.commands.length := by
            rw [hc4]
            simp
            omega
          constructor
          · rw [← hcmds, List.reverse_reverse]
            exact hadj4
          · intro b hb
            rw [← hbegs] at hb
            rw [← hcmds, List.length_reverse]
            simp only [List.mem_cons, List.not_mem_nil, or_false] at hb
            rcases hb with rfl | rfl | rfl <;> omega

/-- Adjacent pairs of an `adjOK` list, by position. -/
lemma adjOK_pairs :
    ∀ (l : List (Nat × Nat)), adjOK l →
      ∀ j, j + 1 < l.length → rOK (l.getD j (0, 0)) (l.getD (j + 1) (0, 0)) := by
  intro l
  induction l with
  | nil =>
    intro _ j hj
    simp at hj
  | cons a t ih =>
    intro h j hj
    rcases t with _ | ⟨b, t'⟩
    · simp at hj
    rcases j with _ | m
    · exact h.1
    · have hj' : m + 1 < (b :: t').length := by
        simp at hj ⊢
        omega
      exact ih h.2 m hj'

lemma revGetD (l : List (Nat × Nat)) (i : Nat) (h : i < l.length) :
    l.reverse.getD i (0, 0) = l.getD (l.length - 1 - i) (0, 0) := by
  have h1 : i < l.reverse.length := by
    rw [List.length_reverse]
    exact h
  have h2 : l.length - 1 - i < l.length := by omega
  rw [List.getD_eq_getElem _ _ h1, List.getD_eq_getElem _ _ h2,
    List.getElem_reverse]

/-- Translate the reversed-list invariant to forward adjacent pairs: the
later instruction of each forward pair is the `rOK`-newer one. -/
lemma adjOK_forward (l : List (Nat × Nat)) (h : adjOK l.reverse) :
    ∀ i, i + 1 < l.length →
      rOK (l.getD (i + 1) (0, 0)) (l.getD i (0, 0)) := by
  intro i hi
  have hj : l.length - 2 - i + 1 < l.reverse.length := by
    rw [List.length_reverse]
    omega
  have hp := adjOK_pairs l.reverse h (l.length - 2 - i) hj
  rw [revGetD _ _ (by omega), revGetD _ _ (by omega)] at hp
  have e1 : l.length - 1 - (l.length - 2 - i) = i + 1 := by omega
  have e2 : l.length - 1 - (l.length - 2 - i + 1) = i := by omega
  rw [e1, e2] at hp
  exact hp

/-- A program successfully loaded from source comes from a successful
`_board_to_commands` run. -/
lemma createCommands_ok (data : List Nat) (iOpt oOpt : Option Bool)
    (fuel : Nat) (P : LoadedProgram)
    (h : createCommands data iOpt oOpt fuel = some (Except.ok P)) :
    ∃ board car,
      boardToCommands board car fuel = some (Except.ok (P.commands, P.begs)) := by
  rw [createCommands] at h
  split at h
  · exact Except.noConfusion (Option.some.inj h)
  split at h
  · exact Except.noConfusion (Option.some.inj h)
  · rename_i board hasCar hasExit carPos heqb
    split at h
    · exact Except.noConfusion (Option.some.inj h)
    split at h
    · exact Except.noConfusion (Option.some.inj h)
    split at h
    · exact Except.noConfusion (Option.some.inj h)
    · rename_i carP car
      split at h
      · exact Option.noConfusion h
      · exact Except.noConfusion (Option.some.inj h)
      · rename_i cmds begs hbtc
        have hP := Except.ok.inj (Option.some.inj h)
        refine ⟨board, car, ?_⟩
        rw [← hP]
        exact hbtc

/-! ### C5 -/

/-- C5, refuted: the source `srcB` (`o#` / `>v` / `^.`) loads
successfully into an IR whose instructions at positions 3 and 4 are both
`(Exit, 0)` — two adjacent emitted instructions with equal opcodes.  The
walker's fusion only merges *memory* actions, so terminators repeat. -/
theorem c5_counterexample :
    createCommands srcB none none 30 = some (Except.ok srcProg) ∧
    (srcProg.commands.getD 3 (0, 0)).1 = (srcProg.commands.getD 4 (0, 0)).1 :=
  ⟨rfl, rfl⟩

/-- C5, amended: in every IR emitted by a successful load from source, no
two adjacent instructions that are *both memory actions* have equal
opcodes, and no memory action is adjacent to its complementary action
(Inc/Dec, PrevCell/NextCell) at all; adjacent non-memory instructions
(Exit, Goto, If) may repeat. -/
theorem c5_amended_thm (data : List Nat) (iOpt oOpt : Option Bool)
    (fuel : Nat) (P : LoadedProgram)
    (h : createCommands data iOpt oOpt fuel = some (Except.ok P)) :
    ∀ i, i + 1 < P.commands.length →
      baseMemOp (P.commands.getD i (0, 0)).1 = true →
      baseMemOp (P.commands.getD (i + 1) (0, 0)).1 = true →
      (P.commands.getD i (0, 0)).1 ≠ (P.commands.getD (i + 1) (0, 0)).1 ∧
      (P.commands.getD i (0, 0)).1 ≠ compl (P.commands.getD (i + 1) (0, 0)).1 := by
  obtain ⟨board, car, hbtc⟩ := createCommands_ok data iOpt oOpt fuel P h
  have hm := boardToCommands_master board car fuel P.commands P.begs hbtc
  intro i hi h1 h2
  have hpair := adjOK_forward P.commands hm.1 i hi h2 h1
  constructor
  · exact fun he => hpair.1 he.symm
  · intro he
    apply hpair.2
    rw [he, compl_compl _ h2]

/-- Witness for C5: the amended theorem applied to the loaded `srcB` at
position 0, whose pair `Inc 1, Next 1` is neither equal nor
complementary. -/
theorem c5_witness :
    (srcProg.commands.getD 0 (0, 0)).1 ≠ (srcProg.commands.getD 1 (0, 0)).1 ∧
    (srcProg.commands.getD 0 (0, 0)).1 ≠
      compl (srcProg.commands.getD 1 (0, 0)).1 :=
  c5_amended_thm srcB none none 30 srcProg rfl 0 (by decide) (by decide)
    (by decide)

/-! ### C6 -/

/-- C6: every entry-table offset of an IR emitted by a successful load
from source is strictly below the number of emitted instructions.  A
path's cancellations can never delete below its entry offset (the
instruction under it is the previous path's non-memory terminator), and
every path appends its own terminator, so the offsets stay in range. -/
theorem c6_entry_offsets (data : List Nat) (iOpt oOpt : Option Bool)
    (fuel : Nat) (P : LoadedProgram)
    (h : createCommands data iOpt oOpt fuel = some (Except.ok P)) :
    ∀ b ∈ P.begs, b < P.commands.length := by
  obtain ⟨board, car, hbtc⟩ := createCommands_ok data iOpt oOpt fuel P h
  exact (boardToCommands_master board car fuel P.commands P.begs hbtc).2

/-- Witness for C6: the loaded `srcB` has entries 4, 5, 6 and 7
instructions. -/
theorem c6_witness :
    (4 < srcProg.commands.length) ∧ (5 < srcProg.commands.length) ∧
    (6 < srcProg.commands.length) :=
  ⟨c6_entry_offsets srcB none none 30 srcProg rfl 4 (by decide),
   c6_entry_offsets srcB none none 30 srcProg rfl 5 (by decide),
   c6_entry_offsets srcB none none 30 srcProg rfl 6 (by decide)⟩

/-! ### C7: the interpreter's output -/

lemma getCell_cons (e : Int × Int) (t : List (Int × Int)) (k : Int) :
    getCell (e :: t) k = if e.1 = k then e.2 else getCell t k := by
  rw [getCell]
  by_cases h : e.1 = k
  · rw [List.find?_cons_of_pos _ (by simpa using h), if_pos h]
  · rw [List.find?_cons_of_neg _ (by simpa using h), if_neg h]
    rfl

lemma setCell_cons (e : Int × Int) (t : List (Int × Int)) (k v : Int) :
    setCell (e :: t) k v =
      if e.1 = k then (k, v) :: t else e :: setCell t k v := by
  rw [setCell]
  by_cases h : e.1 = k
  · rw [if_pos (by simpa using h), if_pos h]
  · rw [if_neg (by simpa using h), if_neg h]

/-- Keys of the tape after `setCell` come from the old keys or are the
written key. -/
lemma mem_keys_setCell :
    ∀ (t : List (Int × Int)) (k v x : Int),
      x ∈ (setCell t k v).map Prod.fst → x ∈ t.map Prod.fst ∨ x = k := by
  intro t
  induction t with
  | nil =>
    intro k v x hx
    simp [setCell] at hx
    exact Or.inr hx
  | cons e t' ih =>
    intro k v x hx
    rw [setCell_cons] at hx
    by_cases h : e.1 = k
    · rw [if_pos h] at hx
      simp at hx ⊢
      rcases hx with rfl | hx
      · exact Or.inr rfl
      · exact Or.inl (Or.inr hx)
    · rw [if_neg h] at hx
      simp at hx ⊢
      rcases hx with rfl | hx
      · exact Or.inl (Or.inl rfl)
      · rcases ih k v x (by simpa using hx) with h1 | h1
        · exact Or.inl (Or.inr (by simpa using h1))
        · exact Or.inr h1

lemma keysNodup_setCell :
    ∀ (cells : List (Int × Int)) (k v : Int),
      keysNodup cells → keysNodup (setCell cells k v) := by
  intro cells
  induction cells with
  | nil =>
    intro k v _
    simp [keysNodup, setCell]
  | cons e t ih =>
    intro k v h
    rw [keysNodup] at h ⊢
    rw [setCell_cons]
    by_cases he : e.1 = k
    · rw [if_pos he]
      simp at h ⊢
      rw [← he]
      exact h
    · rw [if_neg he]
      simp only [List.map_cons, List.nodup_cons] at h ⊢
      refine ⟨?_, ih k v h.2⟩
      intro hmem
      rcases mem_keys_setCell t k v e.1 hmem with h1 | h1
      · exact h.1 h1
      · exact he h1

lemma getCell_mem :
    ∀ (cells : List (Int × Int)) (k v : Int),
      keysNodup cells → (k, v) ∈ cells → getCell cells k = v := by
  intro cells
  induction cells with
  | nil =>
    intro k v _ hm
    exact absurd hm (List.not_mem_nil _)
  | cons e t ih =>
    intro k v h hm
    rw [keysNodup, List.map_cons, List.nodup_cons] at h
    rw [getCell_cons]
    rcases List.mem_cons.mp hm with he | ht
    · rw [← he]
      rw [if_pos rfl]
    · by_cases hek : e.1 = k
      · exfalso
        apply h.1
        rw [hek]
        exact List.mem_map.mpr ⟨(k, v), ht, rfl⟩
      · rw [if_neg hek]
        exact ih k v h.2 ht

lemma mem_of_getCell (cells : List (Int × Int)) (k v : Int)
    (hnz : v ≠ 0) (h : getCell cells k = v) : (k, v) ∈ cells := by
  rw [getCell] at h
  rcases hf : cells.find? (fun e => e.1 == k) with _ | e <;> rw [hf] at h
  · exact absurd h.symm hnz
  · have hk : e.1 = k := by simpa using List.find?_some hf
    have hmem := List.mem_of_find?_eq_some hf
    have : (k, v) = e := by
      rcases e with ⟨e1, e2⟩
      simp at hk h
      rw [hk, h]
    rw [this]
    exact hmem

lemma keysNodup_initCells (inputs : List Int) : keysNodup (initCells inputs) := by
  rw [keysNodup, initCells, List.map_map]
  have h1 : (Prod.fst ∘ fun p : Nat × Int => ((p.1 : Int), p.2)) =
      (fun n : Nat => (n : Int)) ∘ Prod.fst := rfl
  rw [h1, ← List.map_map, List.enum_map_fst]
  exact (List.nodup_range _).map Nat.cast_injective

/-- The execution loop preserves key uniqueness of the tape. -/
lemma interpRun_nodup (cmds : List (Nat × Nat)) :
    ∀ fuel j i cells out, keysNodup cells →
      interpRun cmds fuel j i cells = some out → keysNodup out := by
  intro fuel
  induction fuel with
  | zero =>
    intro j i cells out _ h
    exact Option.noConfusion h
  | succ n ih =>
    intro j i cells out hn h
    simp only [interpRun] at h
    split at h
    · exact Option.noConfusion h
    split at h
    · exact ih _ _ _ _ (keysNodup_setCell cells _ _ hn) h
    split at h
    · exact ih _ _ _ _ (keysNodup_setCell cells _ _ hn) h
    split at h
    · exact ih _ _ _ _ hn h
    split at h
    · exact ih _ _ _ _ hn h
    split at h
    · split at h
      · exact ih _ _ _ _ hn h
      · exact ih _ _ _ _ hn h
    split at h
    · exact ih _ _ _ _ hn h
    split at h
    · rw [← Option.some.inj h]
      exact hn
    · exact ih _ _ _ _ hn h

lemma formatOut_sorted (cells : List (Int × Int)) :
    List.Sorted keyLe (formatOut cells) :=
  List.sorted_insertionSort keyLe _

lemma formatOut_perm (cells : List (Int × Int)) :
    (formatOut cells).Perm (cells.filter (fun e => e.2 != 0)) :=
  List.perm_insertionSort keyLe _

lemma formatOut_mem (cells : List (Int × Int)) (k v : Int)
    (h : keysNodup cells) :
    ((k, v) ∈ formatOut cells) ↔ (getCell cells k = v ∧ v ≠ 0) := by
  rw [(formatOut_perm cells).mem_iff, List.mem_filter]
  constructor
  · rintro ⟨hm, hnz⟩
    exact ⟨getCell_mem cells k v h hm, by simpa using hnz⟩
  · rintro ⟨hg, hnz⟩
    exact ⟨mem_of_getCell cells k v hnz hg, by simpa using hnz⟩

lemma formatOut_keysNodup (cells : List (Int × Int)) (h : keysNodup cells) :
    keysNodup (formatOut cells) := by
  rw [keysNodup]
  rw [((formatOut_perm cells).map Prod.fst).nodup_iff]
  exact List.Nodup.sublist ((List.filter_sublist cells).map Prod.fst) h

lemma sorted_strict (l : List (Int × Int)) (hs : List.Sorted keyLe l)
    (hn : keysNodup l) :
    List.Pairwise (fun p q : Int × Int => p.1 < q.1) l := by
  rw [keysNodup] at hn
  have hne := List.pairwise_map.mp hn
  have hle : List.Pairwise keyLe l := hs
  exact (hle.and hne).imp (fun hab => lt_of_le_of_ne hab.1 hab.2)

/-- C7: whenever the interpreter terminates, its result is exactly the
`(index, value)` pairs of the final tape with nonzero value, sorted
strictly ascending by index (negative indices first), with no zero-valued
pair. -/
theorem c7_interpreter_output (cmds : List (Nat × Nat)) (begs : List Nat)
    (path : Nat) (inputs : List Int) (fuel : Nat) (out : List (Int × Int))
    (h : interpret cmds begs path inputs fuel = some out) :
    List.Pairwise (fun p q : Int × Int => p.1 < q.1) out ∧
    (∀ p ∈ out, p.2 ≠ 0) ∧
    ∃ cells,
      interpRun cmds fuel (startJ begs path) 0 (initCells inputs) = some cells ∧
      out = formatOut cells ∧
      ∀ k v : Int, ((k, v) ∈ out ↔ (getCell cells k = v ∧ v ≠ 0)) := by
  rw [interpret] at h
  rcases hr : interpRun cmds fuel (startJ begs path) 0 (initCells inputs)
    with _ | cells <;> rw [hr] at h
  · exact Option.noConfusion h
  · have hout : formatOut cells = out := Option.some.inj h
    subst hout
    have hnodup := interpRun_nodup cmds fuel _ _ _ cells
      (keysNodup_initCells inputs) hr
    refine ⟨?_, ?_, cells, rfl, rfl, ?_⟩
    · exact sorted_strict _ (formatOut_sorted cells)
        (formatOut_keysNodup cells hnodup)
    · intro p hp
      have hm := (formatOut_perm cells).subset hp
      have := List.of_mem_filter hm
      simpa using this
    · intro k v
      exact formatOut_mem cells k v hnodup

/-- Witness for C7: the theorem applied to the exit-only program on the
input `[3]`, whose output is `[(0, 3)]`. -/
theorem c7_witness :
    List.Pairwise (fun p q : Int × Int => p.1 < q.1) [((0 : Int), (3 : Int))] :=
  (c7_interpreter_output [(7, 0)] [0, 0, 0] 0 [3] 1 [(0, 3)] rfl).1

end Hbcht
